import Mathlib

/-!
Verification development for the cement delivery report tracker
(`outlook_cement_tracker_v_0.1.3.py`, the latest engine version in the
repository).

The parsing engine of the source works by Python `re.search` over the raw
email body.  We embed it at character level: an email body is a `List Char`,
and each regular expression of the source is translated into an explicit,
executable matcher `List Char → Option (captures × rest)` that attempts the
pattern at the head of the list.  `re.search`'s leftmost-match semantics is
the combinator `research`, which tries the matcher at every start position
from the left.  Every pattern of the source has the property that adjacent
greedy pieces range over disjoint character classes (digits vs whitespace vs
letters), so Python's backtracking never changes the outcome and the
deterministic matchers below are observationally equal to the source regexes.

Floating point values of the source (`float(...)`, `50.0 - per_bag`) are
modelled as exact rationals; the decimal literals occurring in reports are
exact in `ℚ`.

The database (`sqlite3`, table `delivery_reports`, primary key `date`) is
modelled as a list of rows; `INSERT OR REPLACE` removes the conflicting row
and appends the new one, `UPDATE ... WHERE date = ?` maps over rows, and
`DELETE ... WHERE date = ?` filters.
-/

/-- Characters of a string literal, used to write the source's pattern and
keyword constants. -/
def chs (s : String) : List Char := s.data

/-- Python `\s` (ASCII range): space, tab, newline, carriage return,
vertical tab, form feed. -/
def isSpc (c : Char) : Bool :=
  c.toNat = 32 || c.toNat = 9 || c.toNat = 10 || c.toNat = 13 || c.toNat = 11 || c.toNat = 12

/-- The regex class of decimal digits `0` to `9` (code points 48-57). -/
def isDigitC (c : Char) : Bool := 48 ≤ c.toNat && c.toNat ≤ 57

/-- The regex class `A` to `Z` or `a` to `z` (code points 65-90, 97-122). -/
def isAlphaC (c : Char) : Bool :=
  (65 ≤ c.toNat && c.toNat ≤ 90) || (97 ≤ c.toNat && c.toNat ≤ 122)

/-- ASCII lower-casing, as Python `str.lower` and `re.IGNORECASE` folding on
the basic latin range. -/
def lowerC (c : Char) : Char :=
  if 65 ≤ c.toNat ∧ c.toNat ≤ 90 then Char.ofNat (c.toNat + 32) else c

/-- Greedy `p+`: one or more characters satisfying `p`; returns the consumed
run and the rest.  Mirrors a Python greedy character-class plus, which is
deterministic here because in every use site the following pattern piece
starts with a character outside the class. -/
def plusP (p : Char → Bool) : List Char → Option (List Char × List Char)
  | [] => none
  | c :: cs => if p c then some (c :: cs.takeWhile p, cs.dropWhile p) else none

/-- Case-sensitive literal: consumes exactly `pat`, returns the rest. -/
def litCS : List Char → List Char → Option (List Char)
  | [], cs => some cs
  | _ :: _, [] => none
  | p :: ps, c :: cs => if c = p then litCS ps cs else none

/-- Case-insensitive literal (models `re.IGNORECASE` matching of a literal):
consumes characters equal to `pat` up to ASCII case, returns the rest. -/
def litCI : List Char → List Char → Option (List Char)
  | [], cs => some cs
  | _ :: _, [] => none
  | p :: ps, c :: cs => if lowerC c = lowerC p then litCI ps cs else none

/-- Exactly `n` digits (`\d{n}`), returning the digit characters and rest. -/
def takeDigitsN : Nat → List Char → Option (List Char × List Char)
  | 0, cs => some ([], cs)
  | _ + 1, [] => none
  | n + 1, c :: cs =>
    if isDigitC c then (takeDigitsN n cs).map (fun a => (c :: a.1, a.2)) else none

/-- Exactly `n` letters (`[A-Za-z]{n}`). -/
def takeAlphaN : Nat → List Char → Option (List Char × List Char)
  | 0, cs => some ([], cs)
  | _ + 1, [] => none
  | n + 1, c :: cs =>
    if isAlphaC c then (takeAlphaN n cs).map (fun a => (c :: a.1, a.2)) else none

/-- Numeric value of a digit string, as Python `int`. -/
def digitsVal (ds : List Char) : Nat := ds.foldl (fun a c => a * 10 + (c.toNat - 48)) 0

/-- One separator character of the date patterns' hyphen-or-slash class. -/
def sep1 : List Char → Option (List Char)
  | [] => none
  | c :: cs => if c = '-' || c = '/' then some cs else none

/-- Character class hyphen, slash or `\s` of the fallback date pattern. -/
def isSepW (c : Char) : Bool := c == '-' || c == '/' || isSpc c

/-- The labelled date pattern of `parse_email_body`: literal `Date:`, then
`\s*`, then `\d{2}`, a hyphen or slash, `[A-Za-z]{3}`, a hyphen or slash,
`\d{4}` (case-sensitive), attempted at the head of the text.  Returns
(day, month token, year). -/
def matchDatePA (cs : List Char) : Option (Nat × List Char × Nat) :=
  (litCS (chs "Date:") cs).bind fun r1 =>
  (takeDigitsN 2 (r1.dropWhile isSpc)).bind fun d2 =>
  (sep1 d2.2).bind fun r3 =>
  (takeAlphaN 3 r3).bind fun mo =>
  (sep1 mo.2).bind fun r5 =>
  (takeDigitsN 4 r5).map fun y4 =>
  (digitsVal d2.1, mo.1, digitsVal y4.1)

/-- The fallback date pattern of `parse_email_body`: `\d{2}`, one or more
separators (hyphen, slash or whitespace), `[A-Za-z]{3}`, one or more
separators, `\d{4}`, attempted at the head. -/
def matchDateFB (cs : List Char) : Option (Nat × List Char × Nat) :=
  (takeDigitsN 2 cs).bind fun d2 =>
  (plusP isSepW d2.2).bind fun s1 =>
  (takeAlphaN 3 s1.2).bind fun mo =>
  (plusP isSepW mo.2).bind fun s2 =>
  (takeDigitsN 4 s2.2).map fun y4 =>
  (digitsVal d2.1, mo.1, digitsVal y4.1)

/-- Python `re.search`: try the matcher at every start position, leftmost
success wins (including the empty suffix at the very end). -/
def research {α : Type} (m : List Char → Option α) : List Char → Option α
  | [] => m []
  | c :: cs =>
    match m (c :: cs) with
    | some a => some a
    | none => research m cs

/-- The month-name table of `parse_email_body` (`months.get(...)` applied to
the lower-cased month token). -/
def monthNum (mon : List Char) : Option Nat :=
  match mon.map lowerC with
  | ['j', 'a', 'n'] => some 1
  | ['f', 'e', 'b'] => some 2
  | ['m', 'a', 'r'] => some 3
  | ['a', 'p', 'r'] => some 4
  | ['m', 'a', 'y'] => some 5
  | ['j', 'u', 'n'] => some 6
  | ['j', 'u', 'l'] => some 7
  | ['a', 'u', 'g'] => some 8
  | ['s', 'e', 'p'] => some 9
  | ['o', 'c', 't'] => some 10
  | ['n', 'o', 'v'] => some 11
  | ['d', 'e', 'c'] => some 12
  | _ => none

/-- Gregorian leap year, as Python `datetime`. -/
def leapYear (y : Nat) : Bool := (y % 4 == 0 && y % 100 != 0) || y % 400 == 0

/-- Day count of a month, as Python `datetime`. -/
def daysInMonth (y m : Nat) : Nat :=
  if m = 2 then (if leapYear y then 29 else 28)
  else if m = 4 || m = 6 || m = 9 || m = 11 then 30 else 31

/-- Validity of `datetime(year, month, day)` for a month already in `1..12`:
the constructor raises (caught by the source, yielding a parse failure)
outside these bounds. -/
def validDate (y m d : Nat) : Bool :=
  1 ≤ y && y ≤ 9999 && 1 ≤ d && d ≤ daysInMonth y m

/-- Date extraction stage of `parse_email_body` (v0.1.3, lines 927-951):
search the labelled pattern, fall back to the bare pattern, convert the month
token, and build the date.  Result is (year, month, day), the data of the
`%Y-%m-%d` formatted key. -/
def extract_date (body : List Char) : Option (Nat × Nat × Nat) :=
  match (match research matchDatePA body with
         | some x => some x
         | none => research matchDateFB body) with
  | none => none
  | some (d, mon, y) =>
    match monthNum mon with
    | none => none
    | some m => if validDate y m d then some (y, m, d) else none

/-- Greedy `\s+`, keeping only the rest. -/
def plusSpc (cs : List Char) : Option (List Char) := (plusP isSpc cs).map (·.2)

/-- A sequence of case-insensitive literal words separated by `\s+` (no
trailing whitespace requirement), attempted at the head. -/
def matchWordsAt : List (List Char) → List Char → Option (List Char)
  | [], cs => some cs
  | [w], cs => litCI w cs
  | w :: w2 :: ws, cs =>
    (litCI w cs).bind fun r1 =>
    (plusSpc r1).bind fun r2 =>
    matchWordsAt (w2 :: ws) r2

/-- The five-column table header pattern
(`Total\s+Delivery\s+Bag\s+Weight\s+Physical\s+Weight\s+Short\s+Excess`,
`re.IGNORECASE`), attempted at the head; returns the rest. -/
def matchHeaderAt (cs : List Char) : Option (List Char) :=
  matchWordsAt [chs "total", chs "delivery", chs "bag", chs "weight",
                chs "physical", chs "weight", chs "short", chs "excess"] cs

/-- The section anchor pattern (`Delivery Information:\s*Bag Cement`,
`re.IGNORECASE`), attempted at the head; returns the rest. -/
def matchDeliveryInfoAt (cs : List Char) : Option (List Char) :=
  (litCI (chs "delivery information:") cs).bind fun r1 =>
  litCI (chs "bag cement") (r1.dropWhile isSpc)

/-- Greedy `\d+` with its numeric value. -/
def plusDigits (cs : List Char) : Option (Nat × List Char) :=
  (plusP isDigitC cs).map (fun a => (digitsVal a.1, a.2))

/-- Greedy `\d+` followed by `\s+`: one table cell and its separating
whitespace. -/
def plusDigitsSp (cs : List Char) : Option (Nat × List Char) :=
  (plusDigits cs).bind fun v => (plusSpc v.2).map fun r => (v.1, r)

/-- The data-row pattern (`(\d+)\s+(\d+)\s+(\d+)\s+(\d+)\s+(\d+)`), attempted
at the head: five whitespace-separated integer runs. -/
def matchRowAt (cs : List Char) : Option ((Nat × Nat × Nat × Nat × Nat) × List Char) :=
  (plusDigitsSp cs).bind fun v1 =>
  (plusDigitsSp v1.2).bind fun v2 =>
  (plusDigitsSp v2.2).bind fun v3 =>
  (plusDigitsSp v3.2).bind fun v4 =>
  (plusDigits v4.2).map fun v5 => ((v1.1, v2.1, v3.1, v4.1, v5.1), v5.2)

/-- Table extraction stage of `parse_email_body` (v0.1.3, lines 970-1006):
in the text after the section anchor, take the first occurrence of the
five-column header, then the first run of five integers after it; the 4th and
5th are (short, excess). -/
def extractTable (afterDI : List Char) : Option (Nat × Nat) :=
  match research matchHeaderAt afterDI with
  | none => none
  | some r =>
    match research matchRowAt r with
    | none => none
    | some (ns, _) => some (ns.2.2.2.1, ns.2.2.2.2)

/-- Optional single letter (the `s?` of `Per Bags?`), case-insensitive. -/
def optChar (c0 : Char) : List Char → List Char
  | [] => []
  | c :: cs => if lowerC c = c0 then cs else c :: cs

/-- Optional literal (the `(?:/Excess)?` group), case-insensitive. -/
def optLit (pat : List Char) (cs : List Char) : List Char :=
  match litCI pat cs with
  | some r => r
  | none => cs

/-- Exact rational value of a matched decimal literal, as Python `float` of
the captured text: optional sign, integer part, fraction digits value and
fraction digit count. -/
def ratDec (neg : Bool) (ip fv k : Nat) : ℚ :=
  (if neg then -1 else 1) * ((ip : ℚ) + (fv : ℚ) / (10 : ℚ) ^ k)

/-- A signed decimal number (`-?\d+\.?\d*`) as an exact rational. -/
def matchNumberAt (cs : List Char) : Option (ℚ × List Char) :=
  match (match cs with
         | '-' :: rest => (true, rest)
         | _ => (false, cs)) with
  | (neg, cs1) =>
    (plusP isDigitC cs1).bind fun ds =>
    match (match ds.2 with
           | '.' :: rest => (rest.takeWhile isDigitC, rest.dropWhile isDigitC)
           | r1 => ([], r1)) with
    | (fr, r2) =>
      some (ratDec neg (digitsVal ds.1) (digitsVal fr) fr.length, r2)

/-- The per-bag label pattern
(`Per Bags?\s+Short(?:/Excess)?:\s*(-?\d+\.?\d*)`, `re.IGNORECASE`),
attempted at the head. -/
def matchPerBagAt (cs : List Char) : Option (ℚ × List Char) :=
  (litCI (chs "per bag") cs).bind fun r1 =>
  (plusSpc (optChar 's' r1)).bind fun r3 =>
  (litCI (chs "short") r3).bind fun r4 =>
  (litCS (chs ":") (optLit (chs "/excess") r4)).bind fun r6 =>
  matchNumberAt (r6.dropWhile isSpc)

/-- Per-bag extraction stage of `parse_email_body` (v0.1.3, lines 1015-1023):
the label pattern is searched over the whole body. -/
def perBagOf (body : List Char) : Option (ℚ × List Char) := research matchPerBagAt body

/-- The record produced by a successful parse (the dict returned by
`parse_email_body`). -/
structure Parsed where
  date : Nat × Nat × Nat
  short : Nat
  excess : Nat
  per_bag_short_excess : ℚ
  bag_weight : ℚ
deriving DecidableEq

/-- Shallow embedding of `parse_email_body` (v0.1.3, lines 922-1042): date,
section anchor, first header, first five-integer run, per-bag value, and the
derived bag weight `50.0 - per_bag`.  Any stage failing yields `none` (the
source returns `None`). -/
def parse_email_body (body : List Char) : Option Parsed :=
  match extract_date body with
  | none => none
  | some (y, m, d) =>
    match research matchDeliveryInfoAt body with
    | none => none
    | some afterDI =>
      match extractTable afterDI with
      | none => none
      | some (s, e) =>
        match perBagOf body with
        | none => none
        | some (q, _) =>
          some { date := (y, m, d), short := s, excess := e,
                 per_bag_short_excess := q, bag_weight := 50 - q }


/-- Calendar-date key of a stored report, the data of the source's
`%Y-%m-%d` primary-key string. -/
abbrev DateK := Nat × Nat × Nat

/-- One entry of the source's `emails_by_date` dictionary: the parsed data,
the message subject and the received time (modelled as a totally ordered
timestamp). -/
structure EInfo where
  data : Parsed
  subject : List Char
  received : Nat
deriving DecidableEq

/-- Dictionary lookup `report_date in emails_by_date` /
`emails_by_date[report_date]`. -/
def assocFind (d : DateK) : List (DateK × EInfo) → Option EInfo
  | [] => none
  | (k, v) :: rest => if k = d then some v else assocFind d rest

/-- One iteration of the sync loop's dedup update (v0.1.3, lines 861-870):
keep the entry only if the date is new or the received time is strictly
later; a Python dict update keeps the key's insertion position. -/
def dedupStep (m : List (DateK × EInfo)) (e : EInfo) : List (DateK × EInfo) :=
  match assocFind e.data.date m with
  | none => m ++ [(e.data.date, e)]
  | some cur =>
    if cur.received < e.received then
      m.map (fun pr => if pr.1 = e.data.date then (e.data.date, e) else pr)
    else m

/-- The dedup pass of `sync_outlook_emails` over the parsed candidates in
message order. -/
def reconcile (es : List EInfo) : List (DateK × EInfo) := es.foldl dedupStep []

/-- One row of the `delivery_reports` table.  `per_bag_short_excess` and
`bag_weight` are nullable columns (`Option`); rows written before the
`bag_weight` migration have `none` there. -/
structure Row where
  date : DateK
  short : Nat
  excess : Nat
  per_bag_short_excess : Option ℚ
  bag_weight : Option ℚ
  email_subject : List Char
  email_received : Nat
deriving DecidableEq

/-- `INSERT OR REPLACE` keyed by the `date` primary key: the conflicting row
is removed and the new row inserted. -/
def upsertRow (r : Row) (s : List Row) : List Row :=
  (s.filter fun x => decide (x.date ≠ r.date)) ++ [r]

/-- The row written by the sync insert loop (v0.1.3, lines 884-899). -/
def rowOf (d : DateK) (e : EInfo) : Row :=
  { date := d, short := e.data.short, excess := e.data.excess,
    per_bag_short_excess := some e.data.per_bag_short_excess,
    bag_weight := some e.data.bag_weight,
    email_subject := e.subject, email_received := e.received }

/-- The insert loop over the deduplicated entries. -/
def applyBatch (b : List (DateK × EInfo)) (s : List Row) : List Row :=
  b.foldl (fun st pr => upsertRow (rowOf pr.1 pr.2) st) s

/-- Does one list start with another. -/
def startsWith : List Char → List Char → Bool
  | [], _ => true
  | _ :: _, [] => false
  | p :: ps, c :: cs => p == c && startsWith ps cs

/-- Python substring containment `pat in text`. -/
def containsSub (pat : List Char) : List Char → Bool
  | [] => startsWith pat []
  | c :: cs => startsWith pat (c :: cs) || containsSub pat cs

/-- The sender check of `sync_outlook_emails` (v0.1.3, lines 817-824): a
nonempty sender string containing the configured address or one of its two
identifying substrings, case-folded. -/
def senderOK (sender : List Char) : Bool :=
  !sender.isEmpty &&
  (containsSub (chs "scale.sscil@sevenringscement.com") (sender.map lowerC) ||
   containsSub (chs "scale.sscil") (sender.map lowerC) ||
   containsSub (chs "sevenringscement") (sender.map lowerC))

/-- The subject check of `sync_outlook_emails` (v0.1.3, lines 831-845):
"weigh" and "bridge" (or joined "weighbridge") and "report" (or the
misspelling "repot"), all case-folded containment tests. -/
def subjectOK (subject : List Char) : Bool :=
  ((containsSub (chs "weigh") (subject.map lowerC) &&
    containsSub (chs "bridge") (subject.map lowerC)) ||
   containsSub (chs "weighbridge") (subject.map lowerC)) &&
  (containsSub (chs "report") (subject.map lowerC) ||
   containsSub (chs "repot") (subject.map lowerC))

/-- A message of the abstract mail source: the fields the engine reads. -/
structure Msg where
  sender : List Char
  subject : List Char
  body : List Char
  received : Nat
deriving DecidableEq

/-- Outcome of the per-message stage of the sync loop. -/
inductive StepRes where
  | skippedSender
  | skippedSubject
  | parseFailed
  | candidate (e : EInfo)
deriving DecidableEq

/-- The per-message stage of `sync_outlook_emails`: sender filter, then
subject filter, then body parse; only a successful parse yields a dedup
candidate. -/
def processMessage (msg : Msg) : StepRes :=
  if !senderOK msg.sender then .skippedSender
  else if !subjectOK msg.subject then .skippedSubject
  else
    match parse_email_body msg.body with
    | none => .parseFailed
    | some p => .candidate { data := p, subject := msg.subject, received := msg.received }

/-- The successfully parsed candidates of a message batch, in order. -/
def candidatesOf (msgs : List Msg) : List EInfo :=
  msgs.filterMap fun msg =>
    match processMessage msg with
    | .candidate e => some e
    | _ => none

/-- The store-changing effect of `sync_outlook_emails` (v0.1.3, lines
763-913): filter and parse the window's messages, keep the latest candidate
per date, and insert-or-replace each kept record. -/
def sync_outlook_emails (msgs : List Msg) (s : List Row) : List Row :=
  applyBatch (reconcile (candidatesOf msgs)) s

/-- The manual edit `save_changes` (v0.1.3, lines 609-626): `UPDATE
delivery_reports SET short, excess, per_bag_short_excess, bag_weight WHERE
date = d`, with `bag_weight` recomputed as `50.0 - per_bag`. -/
def save_changes (d : DateK) (sh ex : Nat) (pb : ℚ) (s : List Row) : List Row :=
  s.map fun r =>
    if r.date = d then
      { r with short := sh, excess := ex, per_bag_short_excess := some pb,
               bag_weight := some (50 - pb) }
    else r

/-- The manual `delete_record` (v0.1.3, lines 643-655): `DELETE FROM
delivery_reports WHERE date = d`. -/
def delete_record (d : DateK) (s : List Row) : List Row :=
  s.filter fun r => decide (r.date ≠ d)

/-- The database with its schema bit: whether the `bag_weight` column exists
(the source's `PRAGMA table_info` check). -/
structure DB where
  hasBagCol : Bool
  rows : List Row
deriving DecidableEq

/-- The migration body of `init_database` (v0.1.3, lines 84-91): rows whose
`per_bag_short_excess` is non-null get `bag_weight = 50.0 - per_bag`; null
rows are left untouched. -/
def backfillRow (r : Row) : Row :=
  match r.per_bag_short_excess with
  | some p => { r with bag_weight := some (50 - p) }
  | none => r

/-- Shallow embedding of `init_database` (v0.1.3, lines 57-96): if the
`bag_weight` column is absent, add it and backfill every existing row;
otherwise do nothing. -/
def init_database (db : DB) : DB :=
  if db.hasBagCol then db else { hasBagCol := true, rows := db.rows.map backfillRow }

/-- The derived-field invariant of the store: every row's `bag_weight`
equals `50.0` minus its `per_bag_short_excess` whenever the latter is
present. -/
def InvStore (s : List Row) : Prop :=
  ∀ r ∈ s, ∀ p : ℚ, r.per_bag_short_excess = some p → r.bag_weight = some (50 - p)

/-- The body of the boundary scenario exactly as the claim lists its
contents: a labelled date, the five-column table header followed by its
numeric row, and the per-bag label, with no other anchors. -/
def bodyNoAnchor : List Char :=
  chs "Date: 05-Jan-2024\nTotal Delivery Bag Weight Physical Weight Short Excess\n31517 1575850 1577600 320 2070\nPer Bag Short: -0.0414\n"

/-- The same body with the `Delivery Information: Bag Cement` label that
v0.1.3 requires before it looks for the table. -/
def bodySingleSection : List Char :=
  chs "Date: 05-Jan-2024\nDelivery Information: Bag Cement\nTotal Delivery Bag Weight Physical Weight Short Excess\n31517 1575850 1577600 320 2070\nPer Bag Short: -0.0414\n"

/-- A two-section report whose only per-bag label sits in the monthly
section (after the second header occurrence). -/
def bodyMonthlyPerBag : List Char :=
  chs "Date: 05-Jan-2024\nDelivery Information: Bag Cement\nDaily Report\nTotal Delivery Bag Weight Physical Weight Short Excess\n31517 1575850 1577600 320 2070\nMonthly to Date Report\nTotal Delivery Bag Weight Physical Weight Short Excess\n99999 9999990 9999999 740 10860\nPer Bag Short: 0.0235\n"

/-- Selection fold characterizing the dedup loop for one date: starting
from an optional current best, keep the strictly later received candidate;
on ties the incumbent (first seen) stays. -/
def bestOf (o : Option EInfo) (l : List EInfo) : Option EInfo :=
  l.foldl (fun acc e =>
    match acc with
    | none => some e
    | some b => if b.received < e.received then some e else acc) o

/-- A concrete candidate received at time 900 with short 100 (the spec's
09:00 message). -/
def einfoA : EInfo :=
  { data := { date := (2024, 1, 5), short := 100, excess := 0,
              per_bag_short_excess := ratDec false 0 0 0,
              bag_weight := 50 - ratDec false 0 0 0 },
    subject := chs "Weigh Bridge Report a", received := 900 }

/-- A concrete candidate for the same date received at time 1400 with short
150 (the spec's 14:00 message). -/
def einfoB : EInfo :=
  { data := { date := (2024, 1, 5), short := 150, excess := 0,
              per_bag_short_excess := ratDec false 0 0 0,
              bag_weight := 50 - ratDec false 0 0 0 },
    subject := chs "Weigh Bridge Report b", received := 1400 }

/-- A concrete stored row without derived-field values. -/
def rowA : Row :=
  { date := (2024, 1, 5), short := 1, excess := 2,
    per_bag_short_excess := none, bag_weight := none,
    email_subject := chs "s", email_received := 3 }

/-- If the matcher fails at every start position before `n` and succeeds at
`n`, the leftmost search returns the success at `n`. -/
theorem research_of_first {α : Type} (m : List Char → Option α) :
    ∀ (n : Nat) (t : List Char) (a : α),
      (∀ i < n, m (t.drop i) = none) → m (t.drop n) = some a →
      research m t = some a := by
  intro n
  induction n with
  | zero =>
    intro t a _ h2
    cases t with
    | nil => simpa [research] using h2
    | cons c cs =>
      simp only [List.drop_zero] at h2
      simp [research, h2]
  | succ n ih =>
    intro t a h1 h2
    cases t with
    | nil =>
      have h0 := h1 0 (Nat.succ_pos n)
      simp only [List.drop_nil] at h0 h2
      rw [h0] at h2
      cases h2
    | cons c cs =>
      have h0 := h1 0 (Nat.succ_pos n)
      simp only [List.drop_zero] at h0
      have hstep : research m (c :: cs) = research m cs := by
        simp [research, h0]
      rw [hstep]
      refine ih cs a (fun i hi => ?_) (by simpa using h2)
      simpa using h1 (i + 1) (Nat.succ_lt_succ hi)

/-- A successful leftmost search is a success at some position, with failures
at all earlier positions. -/
theorem research_some_elim {α : Type} (m : List Char → Option α) :
    ∀ (t : List Char) (a : α), research m t = some a →
      ∃ n, (∀ i < n, m (t.drop i) = none) ∧ m (t.drop n) = some a := by
  intro t
  induction t with
  | nil =>
    intro a h
    exact ⟨0, fun i hi => absurd hi (Nat.not_lt_zero i), by simpa [research] using h⟩
  | cons c cs ih =>
    intro a h
    cases hm : m (c :: cs) with
    | some b =>
      refine ⟨0, fun i hi => absurd hi (Nat.not_lt_zero i), ?_⟩
      simp only [List.drop_zero, hm]
      simpa [research, hm] using h
    | none =>
      have h' : research m cs = some a := by simpa [research, hm] using h
      obtain ⟨n, hn1, hn2⟩ := ih a h'
      refine ⟨n + 1, fun i hi => ?_, by simpa using hn2⟩
      cases i with
      | zero => simpa using hm
      | succ j => simpa using hn1 j (Nat.lt_of_succ_lt_succ hi)

/-- A failed leftmost search fails at every position. -/
theorem research_none_elim {α : Type} (m : List Char → Option α) :
    ∀ (t : List Char), research m t = none → ∀ i, m (t.drop i) = none := by
  intro t
  induction t with
  | nil =>
    intro h i
    simpa [research] using h
  | cons c cs ih =>
    intro h i
    cases hm : m (c :: cs) with
    | some b => simp [research, hm] at h
    | none =>
      have h' : research m cs = none := by simpa [research, hm] using h
      cases i with
      | zero => simpa using hm
      | succ j => simpa using ih h' j

/-- A matcher failing at every position makes the leftmost search fail. -/
theorem research_none_intro {α : Type} (m : List Char → Option α) :
    ∀ (t : List Char), (∀ i, m (t.drop i) = none) → research m t = none := by
  intro t
  induction t with
  | nil =>
    intro h
    simpa [research] using h 0
  | cons c cs ih =>
    intro h
    have h0 := h 0
    simp only [List.drop_zero] at h0
    simp only [research, h0]
    exact ih (fun i => by simpa using h (i + 1))


/-- C6 counterexample: a body with no daily/monthly markers, exactly one
occurrence of the table header, a parseable labelled date, the numeric row
and the per-bag label is NOT parsed by the engine — `parse_email_body` fails
because the body lacks the `Delivery Information: Bag Cement` anchor,
refuting the claim that such a body "is fully parsed". -/
theorem parse_no_marker_counterexample : parse_email_body bodyNoAnchor = none := by
  decide

/-- C6 (amended): a body with no daily/monthly markers and exactly one
occurrence of the table header is fully parsed provided it also carries the
`Delivery Information: Bag Cement` label that v0.1.3 requires; the claim's
scenario values are produced exactly: date 2024-01-05, short 320, excess
2070, per-bag -0.0414 = -207/5000, bag weight 50.0414 = 250207/5000. -/
theorem parse_single_section_scenario :
    parse_email_body bodySingleSection =
      some { date := (2024, 1, 5), short := 320, excess := 2070,
             per_bag_short_excess := -(207 / 5000 : ℚ),
             bag_weight := 250207 / 5000 } := by
  have h : parse_email_body bodySingleSection =
      some { date := (2024, 1, 5), short := 320, excess := 2070,
             per_bag_short_excess := ratDec true 0 414 4,
             bag_weight := 50 - ratDec true 0 414 4 } := rfl
  rw [h]
  norm_num [ratDec, Parsed.mk.injEq]

/-- C8 counterexample: in a two-section report whose only per-bag label lies
in the monthly section (after the second header occurrence and the "Monthly
to Date Report" marker), v0.1.3 still extracts that monthly value — the
label search runs over the whole body, refuting the claim that the label
match is never satisfied by an occurrence belonging to the monthly
section. -/
theorem perbag_monthly_counterexample :
    parse_email_body bodyMonthlyPerBag =
      some { date := (2024, 1, 5), short := 320, excess := 2070,
             per_bag_short_excess := (47 / 2000 : ℚ),
             bag_weight := 99953 / 2000 } := by
  have h : parse_email_body bodyMonthlyPerBag =
      some { date := (2024, 1, 5), short := 320, excess := 2070,
             per_bag_short_excess := ratDec false 0 235 4,
             bag_weight := 50 - ratDec false 0 235 4 } := rfl
  rw [h]
  norm_num [ratDec, Parsed.mk.injEq]

/-- A matcher that fails at every position up to the text's length and on
the empty suffix fails at every position. -/
theorem matcher_none_everywhere {α : Type} (m : List Char → Option α) (t : List Char)
    (h1 : ∀ i < t.length, m (t.drop i) = none) (h2 : m [] = none) :
    ∀ i, m (t.drop i) = none := by
  intro i
  by_cases hi : i < t.length
  · exact h1 i hi
  · rw [List.drop_eq_nil_of_le (Nat.le_of_not_lt hi)]
    exact h2

/-- C7 counterexample: the date resolver does not accept month names longer
than three letters — on the text `Date: 05-January-2024` (claimed to resolve
to 2024-01-05 by truncating the month to `Jan`) both date patterns fail,
since each requires a separator immediately after exactly three letters, and
`extract_date` returns not-found. -/
theorem resolve_long_month_counterexample :
    extract_date (chs "Date: 05-January-2024") = none := by
  decide

/-- C7 (amended): the resolver takes the leftmost labelled match (literal
`Date:`, 2-digit day, hyphen or slash, exactly-3-letter month, hyphen or
slash, 4-digit year); failing that, the leftmost bare triple (2-digit day,
3-letter month, 4-digit year, separated by runs of hyphen/slash/whitespace).
It returns the canonical date when that leftmost match's month token maps to
one of the twelve abbreviations and the triple is a valid calendar date; it
returns not-found when no triple matches anywhere, or when the leftmost
match's month token does not map. -/
theorem resolve_date_amended (t : List Char) :
    (∀ n d mon y m, (∀ i < n, matchDatePA (t.drop i) = none) →
        matchDatePA (t.drop n) = some (d, mon, y) →
        monthNum mon = some m → validDate y m d = true →
        extract_date t = some (y, m, d)) ∧
    (∀ n d mon y m, (∀ i, matchDatePA (t.drop i) = none) →
        (∀ i < n, matchDateFB (t.drop i) = none) →
        matchDateFB (t.drop n) = some (d, mon, y) →
        monthNum mon = some m → validDate y m d = true →
        extract_date t = some (y, m, d)) ∧
    ((∀ i, matchDatePA (t.drop i) = none) → (∀ i, matchDateFB (t.drop i) = none) →
        extract_date t = none) ∧
    (∀ n d mon y, (∀ i, matchDatePA (t.drop i) = none) →
        (∀ i < n, matchDateFB (t.drop i) = none) →
        matchDateFB (t.drop n) = some (d, mon, y) →
        monthNum mon = none → extract_date t = none) := by
  refine ⟨?_, ?_, ?_, ?_⟩
  · intro n d mon y m h1 h2 hm hv
    have hra : research matchDatePA t = some (d, mon, y) := research_of_first _ n t _ h1 h2
    unfold extract_date
    rw [hra]
    simp [hm, hv]
  · intro n d mon y m hpa h1 h2 hm hv
    have hra : research matchDatePA t = none := research_none_intro _ t hpa
    have hrb : research matchDateFB t = some (d, mon, y) := research_of_first _ n t _ h1 h2
    unfold extract_date
    rw [hra, hrb]
    simp [hm, hv]
  · intro hpa hfb
    have hra : research matchDatePA t = none := research_none_intro _ t hpa
    have hrb : research matchDateFB t = none := research_none_intro _ t hfb
    unfold extract_date
    rw [hra, hrb]
  · intro n d mon y hpa h1 h2 hm
    have hra : research matchDatePA t = none := research_none_intro _ t hpa
    have hrb : research matchDateFB t = some (d, mon, y) := research_of_first _ n t _ h1 h2
    unfold extract_date
    rw [hra, hrb]
    simp [hm]

/-- Witness for the amended date-resolver theorem: a labelled date, a bare
whitespace-separated date, a dateless text, and a non-month token, each
settled by applying the theorem at the concrete input. -/
theorem resolve_date_amended_witness :
    extract_date (chs "Date: 05-Jan-2024") = some (2024, 1, 5) ∧
    extract_date (chs "sent 12 Mar 2023") = some (2023, 3, 12) ∧
    extract_date (chs "no numbers here") = none ∧
    extract_date (chs "31-Abc-2024") = none := by
  refine ⟨?_, ?_, ?_, ?_⟩
  · exact (resolve_date_amended _).1 0 5 (chs "Jan") 2024 1 (by decide) (by decide)
      (by decide) (by decide)
  · exact (resolve_date_amended _).2.1 5 12 (chs "Mar") 2023 3
      (matcher_none_everywhere _ _ (by decide) (by decide)) (by decide) (by decide)
      (by decide) (by decide)
  · exact (resolve_date_amended _).2.2.1
      (matcher_none_everywhere _ _ (by decide) (by decide))
      (matcher_none_everywhere _ _ (by decide) (by decide))
  · exact (resolve_date_amended _).2.2.2 0 31 (chs "Abc") 2024
      (matcher_none_everywhere _ _ (by decide) (by decide)) (by decide) (by decide)
      (by decide)

/-- C8 (amended): the per-bag value is taken from the first occurrence of
the label pattern in the whole body (v0.1.3 does not restrict the search to
the daily section).  Consequently, when the leftmost label match lies wholly
inside the daily part `u` of a body `u ++ v` (its unconsumed remainder still
contains the entire monthly part `v`), the extracted value is that daily
occurrence's, the match region ends within `u`, and any successful parse of
the body carries exactly that value and the derived bag weight `50 - q`. -/
theorem perbag_first_occurrence_amended
    (u v : List Char) (n : Nat) (q : ℚ) (rest : List Char)
    (h1 : ∀ i < n, matchPerBagAt ((u ++ v).drop i) = none)
    (h2 : matchPerBagAt ((u ++ v).drop n) = some (q, rest))
    (h3 : v.length ≤ rest.length) :
    perBagOf (u ++ v) = some (q, rest) ∧
    (u ++ v).length - rest.length ≤ u.length ∧
    ∀ pr, parse_email_body (u ++ v) = some pr →
      pr.per_bag_short_excess = q ∧ pr.bag_weight = 50 - q := by
  have hp : perBagOf (u ++ v) = some (q, rest) := research_of_first _ n _ _ h1 h2
  refine ⟨hp, ?_, ?_⟩
  · have hlen : (u ++ v).length = u.length + v.length := List.length_append u v
    omega
  · intro pr hpr
    unfold parse_email_body at hpr
    cases he : extract_date (u ++ v) with
    | none =>
      rw [he] at hpr
      exact Option.noConfusion hpr
    | some ymd =>
      obtain ⟨y, m, d⟩ := ymd
      rw [he] at hpr
      dsimp only at hpr
      cases hdi : research matchDeliveryInfoAt (u ++ v) with
      | none =>
        rw [hdi] at hpr
        exact Option.noConfusion hpr
      | some afterDI =>
        rw [hdi] at hpr
        dsimp only at hpr
        cases het : extractTable afterDI with
        | none =>
          rw [het] at hpr
          exact Option.noConfusion hpr
        | some se =>
          obtain ⟨s0, e0⟩ := se
          rw [het] at hpr
          dsimp only at hpr
          rw [hp] at hpr
          dsimp only at hpr
          injection hpr with hpr2
          subst hpr2
          exact ⟨rfl, rfl⟩

/-- Witness for the amended per-bag theorem: a body whose daily part holds
the single label occurrence followed by a monthly tail, settled by applying
the theorem at the concrete input. -/
theorem perbag_first_occurrence_amended_witness :
    perBagOf (chs "Daily: Per Bag Short: -0.5 " ++ chs "Monthly") =
      some (ratDec true 0 5 1, chs " Monthly") ∧
    (chs "Daily: Per Bag Short: -0.5 " ++ chs "Monthly").length - (chs " Monthly").length ≤
      (chs "Daily: Per Bag Short: -0.5 ").length :=
  ⟨(perbag_first_occurrence_amended (chs "Daily: Per Bag Short: -0.5 ") (chs "Monthly")
      7 (ratDec true 0 5 1) (chs " Monthly") (by decide) rfl (by decide)).1,
   (perbag_first_occurrence_amended (chs "Daily: Per Bag Short: -0.5 ") (chs "Monthly")
      7 (ratDec true 0 5 1) (chs " Monthly") (by decide) rfl (by decide)).2.1⟩

/-- Characters kept by `takeWhile` satisfy the predicate. -/
theorem mem_takeWhile_sat (p : Char → Bool) :
    ∀ (l : List Char) (c : Char), c ∈ l.takeWhile p → p c = true := by
  intro l
  induction l with
  | nil => intro c hc; simp [List.takeWhile] at hc
  | cons a l ih =>
    intro c hc
    rw [List.takeWhile_cons] at hc
    by_cases hpa : p a
    · rw [if_pos hpa] at hc
      rcases List.mem_cons.mp hc with h | h
      · rwa [h]
      · exact ih c h
    · rw [if_neg hpa] at hc
      simp at hc

/-- A successful greedy plus splits its input into a nonempty consumed run
satisfying the class and the remainder. -/
theorem plusP_parts (p : Char → Bool) (cs a r : List Char)
    (h : plusP p cs = some (a, r)) :
    cs = a ++ r ∧ a ≠ [] ∧ ∀ c ∈ a, p c = true := by
  cases cs with
  | nil => simp [plusP] at h
  | cons c cs2 =>
    by_cases hpc : p c
    · rw [plusP, if_pos hpc] at h
      injection h with h2
      injection h2 with ha hr
      subst ha
      subst hr
      refine ⟨?_, by simp, ?_⟩
      · rw [List.cons_append, List.takeWhile_append_dropWhile]
      · intro c2 hc2
        rcases List.mem_cons.mp hc2 with h | h
        · rwa [h]
        · exact mem_takeWhile_sat p cs2 c2 h
    · rw [plusP, if_neg hpc] at h
      exact Option.noConfusion h

/-- Consumed-region form of `plusDigits`. -/
theorem plusDigits_parts (cs : List Char) (v : Nat) (r : List Char)
    (h : plusDigits cs = some (v, r)) :
    ∃ a, cs = a ++ r ∧ a ≠ [] ∧ ∀ c ∈ a, isDigitC c = true := by
  cases hres : plusP isDigitC cs with
  | none => rw [plusDigits, hres] at h; exact Option.noConfusion h
  | some pr =>
    obtain ⟨a0, r0⟩ := pr
    rw [plusDigits, hres] at h
    injection h with h2
    injection h2 with hv hr
    subst hr
    obtain ⟨h1, h2, h3⟩ := plusP_parts _ _ _ _ hres
    exact ⟨a0, h1, h2, h3⟩

/-- Consumed-region form of `plusSpc`. -/
theorem plusSpc_parts (cs r : List Char) (h : plusSpc cs = some r) :
    ∃ a, cs = a ++ r ∧ a ≠ [] ∧ ∀ c ∈ a, isSpc c = true := by
  cases hres : plusP isSpc cs with
  | none => rw [plusSpc, hres] at h; exact Option.noConfusion h
  | some pr =>
    obtain ⟨a0, r0⟩ := pr
    rw [plusSpc, hres] at h
    injection h with hr
    subst hr
    obtain ⟨h1, h2, h3⟩ := plusP_parts _ _ _ _ hres
    exact ⟨a0, h1, h2, h3⟩

/-- Consumed-region form of `plusDigitsSp`: digits then whitespace. -/
theorem plusDigitsSp_parts (cs : List Char) (v : Nat) (r : List Char)
    (h : plusDigitsSp cs = some (v, r)) :
    ∃ a, cs = a ++ r ∧ a ≠ [] ∧ ∀ c ∈ a, (isDigitC c || isSpc c) = true := by
  cases hd : plusDigits cs with
  | none => rw [plusDigitsSp, hd] at h; exact Option.noConfusion h
  | some pr =>
    obtain ⟨v0, r0⟩ := pr
    rw [plusDigitsSp, hd, Option.some_bind] at h
    dsimp only at h
    cases hs : plusSpc r0 with
    | none => rw [hs] at h; exact Option.noConfusion h
    | some r1 =>
      rw [hs] at h
      injection h with h2
      injection h2 with hv hr
      subst hr
      obtain ⟨a1, ha1, hne1, hc1⟩ := plusDigits_parts _ _ _ hd
      obtain ⟨a2, ha2, hne2, hc2⟩ := plusSpc_parts _ _ hs
      refine ⟨a1 ++ a2, ?_, by simp [hne1], ?_⟩
      · rw [ha1, ha2, List.append_assoc]
      · intro c hc
        rcases List.mem_append.mp hc with h | h
        · simp [hc1 c h]
        · simp [hc2 c h]

/-- Consumed-region form of the five-integer data-row pattern: the matched
text is a nonempty run of digits and whitespace only. -/
theorem matchRow_parts (cs : List Char) (ns : Nat × Nat × Nat × Nat × Nat)
    (rest : List Char) (h : matchRowAt cs = some (ns, rest)) :
    ∃ a, cs = a ++ rest ∧ a ≠ [] ∧ ∀ c ∈ a, (isDigitC c || isSpc c) = true := by
  cases h1 : plusDigitsSp cs with
  | none => rw [matchRowAt, h1] at h; exact Option.noConfusion h
  | some v1 =>
    rw [matchRowAt, h1, Option.some_bind] at h
    cases h2 : plusDigitsSp v1.2 with
    | none => rw [h2] at h; exact Option.noConfusion h
    | some v2 =>
      rw [h2, Option.some_bind] at h
      cases h3 : plusDigitsSp v2.2 with
      | none => rw [h3] at h; exact Option.noConfusion h
      | some v3 =>
        rw [h3, Option.some_bind] at h
        cases h4 : plusDigitsSp v3.2 with
        | none => rw [h4] at h; exact Option.noConfusion h
        | some v4 =>
          rw [h4, Option.some_bind] at h
          cases h5 : plusDigits v4.2 with
          | none => rw [h5] at h; exact Option.noConfusion h
          | some v5 =>
            rw [h5] at h
            dsimp only [Option.map] at h
            injection h with hh
            injection hh with hns hrest
            obtain ⟨a1, e1, n1, c1⟩ := plusDigitsSp_parts _ _ _ h1
            obtain ⟨a2, e2, n2, c2⟩ := plusDigitsSp_parts _ _ _ h2
            obtain ⟨a3, e3, n3, c3⟩ := plusDigitsSp_parts _ _ _ h3
            obtain ⟨a4, e4, n4, c4⟩ := plusDigitsSp_parts _ _ _ h4
            obtain ⟨a5, e5, n5, c5⟩ := plusDigits_parts _ _ _ h5
            refine ⟨a1 ++ (a2 ++ (a3 ++ (a4 ++ a5))), ?_, by simp [n1], ?_⟩
            · rw [e1, e2, e3, e4, e5, hrest]
              simp [List.append_assoc]
            · intro c hc
              simp only [List.mem_append] at hc
              rcases hc with h | h | h | h | h
              · exact c1 c h
              · exact c2 c h
              · exact c3 c h
              · exact c4 c h
              · simp [c5 c h]

/-- A successful case-insensitive literal starting with `p0` pins the head
character's case folding. -/
theorem litCI_head (p0 : Char) (ps cs r : List Char)
    (h : litCI (p0 :: ps) cs = some r) :
    ∃ c cs2, cs = c :: cs2 ∧ lowerC c = lowerC p0 := by
  cases cs with
  | nil => exact Option.noConfusion h
  | cons c cs2 =>
    by_cases hc : lowerC c = lowerC p0
    · exact ⟨c, cs2, rfl, hc⟩
    · rw [litCI, if_neg hc] at h
      exact Option.noConfusion h

/-- Text matching the table header starts with the letter `t` (either
case). -/
theorem matchHeaderAt_head (cs r : List Char) (h : matchHeaderAt cs = some r) :
    ∃ c cs2, cs = c :: cs2 ∧ lowerC c = 't' := by
  rw [matchHeaderAt, matchWordsAt] at h
  cases hl : litCI (chs "total") cs with
  | none => rw [hl] at h; exact Option.noConfusion h
  | some r1 =>
    have hl2 : litCI ('t' :: chs "otal") cs = some r1 := hl
    obtain ⟨c, cs2, hcons, hct⟩ := litCI_head _ _ _ _ hl2
    refine ⟨c, cs2, hcons, ?_⟩
    rw [hct]
    decide

/-- A character whose case folding is `t` is neither a digit nor
whitespace. -/
theorem lower_t_not_row (c : Char) (h : lowerC c = 't') :
    (isDigitC c || isSpc c) = false := by
  by_cases h65 : 65 ≤ c.toNat ∧ c.toNat ≤ 90
  · simp only [isDigitC, isSpc, Bool.or_eq_false_iff, Bool.and_eq_false_iff,
      decide_eq_false_iff_not]
    omega
  · have hself : lowerC c = c := by rw [lowerC, if_neg h65]
    rw [hself] at h
    subst h
    decide

/-- C1: section isolation of the table extraction.  If the first occurrence
of the five-column header in the post-anchor text `t` ends with remainder
`r`, a second header occurrence starts at position `p` of `r` (suffix `s2`),
and a complete five-integer row lies strictly between the two occurrences
(its remainder `rest0` still contains all of `s2`), then the engine returns
the short/excess of the FIRST run of five integers after the first header,
and that run ends at or before the second occurrence — numeric data
following the second header occurrence is never used. -/
theorem extractTable_section_isolation
    (t r s2 rest0 : List Char) (n p q0 : Nat) (ns0 : Nat × Nat × Nat × Nat × Nat)
    (hn : ∀ i < n, matchHeaderAt (t.drop i) = none)
    (hmatch : matchHeaderAt (t.drop n) = some r)
    (hple : p ≤ r.length)
    (hs2 : r.drop p = s2)
    (hs2m : matchHeaderAt s2 ≠ none)
    (hq : matchRowAt (r.drop q0) = some (ns0, rest0))
    (hbefore : s2.length ≤ rest0.length) :
    ∃ m ns rest,
      (∀ i < m, matchRowAt (r.drop i) = none) ∧
      matchRowAt (r.drop m) = some (ns, rest) ∧
      extractTable t = some (ns.2.2.2.1, ns.2.2.2.2) ∧
      s2.length ≤ rest.length := by
  have hH : research matchHeaderAt t = some r := research_of_first _ n t r hn hmatch
  cases hres : research matchRowAt r with
  | none => exact absurd (research_none_elim _ r hres q0) (by rw [hq]; simp)
  | some v =>
    obtain ⟨ns, rest⟩ := v
    obtain ⟨m, hm1, hm2⟩ := research_some_elim _ r _ hres
    refine ⟨m, ns, rest, hm1, hm2, ?_, ?_⟩
    · unfold extractTable
      rw [hH]
      dsimp only
      rw [hres]
    · have hmq : m ≤ q0 := by
        by_contra hlt
        exact absurd hq (by rw [hm1 q0 (Nat.lt_of_not_le hlt)]; simp)
      obtain ⟨a, ha, hane, hachars⟩ := matchRow_parts _ _ _ hm2
      obtain ⟨aq, haq, haqne, _⟩ := matchRow_parts _ _ _ hq
      have hmlen : m ≤ r.length := by
        by_contra hgt
        rw [List.drop_eq_nil_of_le (Nat.le_of_lt (Nat.lt_of_not_le hgt))] at ha
        exact hane (List.append_eq_nil.mp ha.symm).1
      have hqlen : q0 ≤ r.length := by
        by_contra hgt
        rw [List.drop_eq_nil_of_le (Nat.le_of_lt (Nat.lt_of_not_le hgt))] at haq
        exact haqne (List.append_eq_nil.mp haq.symm).1
      have hlen1 : r.length - m = a.length + rest.length := by
        have := congrArg List.length ha
        simp only [List.length_drop, List.length_append] at this
        omega
      have hlen2 : r.length - q0 = aq.length + rest0.length := by
        have := congrArg List.length haq
        simp only [List.length_drop, List.length_append] at this
        omega
      have hs2len : s2.length = r.length - p := by
        rw [← hs2]
        simp [List.length_drop]
      have hapos : 1 ≤ a.length := List.length_pos.mpr hane
      have haqpos : 1 ≤ aq.length := List.length_pos.mpr haqne
      have hkey : m + a.length ≤ p := by
        by_contra hno
        push_neg at hno
        have hlt2 : p - m < a.length := by omega
        have hs2dec : s2 = a.drop (p - m) ++ rest := by
          rw [← hs2]
          have hdrop : r.drop p = (r.drop m).drop (p - m) := by
            rw [List.drop_drop]
            congr 1
            omega
          rw [hdrop, ha, List.drop_append_of_le_length (le_of_lt hlt2)]
        cases hsm : matchHeaderAt s2 with
        | none => exact hs2m hsm
        | some r2 =>
          obtain ⟨c, cs2, hcons, hct⟩ := matchHeaderAt_head s2 r2 hsm
          cases hdm : a.drop (p - m) with
          | nil =>
            have := congrArg List.length hdm
            simp only [List.length_drop, List.length_nil] at this
            omega
          | cons c0 tl =>
            have hs2c : s2 = c0 :: (tl ++ rest) := by
              rw [hs2dec, hdm]
              rfl
            rw [hcons] at hs2c
            injection hs2c with hcc _
            have hc0a : c0 ∈ a := by
              have hmem : c0 ∈ a.drop (p - m) := by
                rw [hdm]
                exact List.mem_cons_self c0 tl
              exact List.mem_of_mem_drop hmem
            have htrue := hachars c0 hc0a
            have hfalse := lower_t_not_row c0 (by rw [← hcc]; exact hct)
            rw [htrue] at hfalse
            exact Bool.noConfusion hfalse
      omega

/-- Witness for the section-isolation theorem: a text holding two header
occurrences with a daily row between them, settled by applying the theorem
at the concrete input. -/
theorem extractTable_section_isolation_witness :
    ∃ m ns rest,
      (∀ i < m, matchRowAt ((chs " 1 2 3 4 5 Total Delivery Bag Weight Physical Weight Short Excess 6 7 8 9 10").drop i) = none) ∧
      matchRowAt ((chs " 1 2 3 4 5 Total Delivery Bag Weight Physical Weight Short Excess 6 7 8 9 10").drop m) = some (ns, rest) ∧
      extractTable (chs "x Total Delivery Bag Weight Physical Weight Short Excess 1 2 3 4 5 Total Delivery Bag Weight Physical Weight Short Excess 6 7 8 9 10") = some (ns.2.2.2.1, ns.2.2.2.2) ∧
      (chs "Total Delivery Bag Weight Physical Weight Short Excess 6 7 8 9 10").length ≤ rest.length :=
  extractTable_section_isolation
    (chs "x Total Delivery Bag Weight Physical Weight Short Excess 1 2 3 4 5 Total Delivery Bag Weight Physical Weight Short Excess 6 7 8 9 10")
    (chs " 1 2 3 4 5 Total Delivery Bag Weight Physical Weight Short Excess 6 7 8 9 10")
    (chs "Total Delivery Bag Weight Physical Weight Short Excess 6 7 8 9 10")
    (chs " Total Delivery Bag Weight Physical Weight Short Excess 6 7 8 9 10")
    2 11 1 (1, 2, 3, 4, 5)
    (by decide) (by decide) (by decide) (by decide) (by decide) (by decide) (by decide)

/-- Lookup distributes over append, preferring the left part. -/
theorem assocFind_append_left (d : DateK) (m1 m2 : List (DateK × EInfo)) (v : EInfo)
    (h : assocFind d m1 = some v) : assocFind d (m1 ++ m2) = some v := by
  induction m1 with
  | nil => exact Option.noConfusion h
  | cons pr m1 ih =>
    obtain ⟨k, w⟩ := pr
    by_cases hk : k = d
    · rw [assocFind, if_pos hk] at h
      rw [List.cons_append, assocFind, if_pos hk]
      exact h
    · rw [assocFind, if_neg hk] at h
      rw [List.cons_append, assocFind, if_neg hk]
      exact ih h

/-- Lookup falls through to the right part when absent on the left. -/
theorem assocFind_append_right (d : DateK) (m1 m2 : List (DateK × EInfo))
    (h : assocFind d m1 = none) : assocFind d (m1 ++ m2) = assocFind d m2 := by
  induction m1 with
  | nil => rfl
  | cons pr m1 ih =>
    obtain ⟨k, w⟩ := pr
    by_cases hk : k = d
    · rw [assocFind, if_pos hk] at h
      exact Option.noConfusion h
    · rw [assocFind, if_neg hk] at h
      rw [List.cons_append, assocFind, if_neg hk]
      exact ih h

/-- A key is absent exactly when no entry carries it. -/
theorem assocFind_eq_none (d : DateK) (m : List (DateK × EInfo)) :
    assocFind d m = none ↔ ∀ pr ∈ m, pr.1 ≠ d := by
  induction m with
  | nil => simp [assocFind]
  | cons pr m ih =>
    obtain ⟨k, w⟩ := pr
    by_cases hk : k = d
    · rw [assocFind, if_pos hk]
      simp only [List.mem_cons]
      constructor
      · intro h; exact Option.noConfusion h
      · intro h; exact absurd hk (h (k, w) (Or.inl rfl))
    · rw [assocFind, if_neg hk]
      rw [ih]
      constructor
      · intro h pr2 hpr2
        rcases List.mem_cons.mp hpr2 with h2 | h2
        · rw [h2]; exact hk
        · exact h pr2 h2
      · intro h pr2 hpr2
        exact h pr2 (List.mem_cons_of_mem _ hpr2)

/-- Updating the entry of a found key replaces exactly that value. -/
theorem assocFind_map_update (d : DateK) (e : EInfo) (m : List (DateK × EInfo))
    (cur : EInfo) (h : assocFind d m = some cur) :
    assocFind d (m.map fun pr => if pr.1 = d then (d, e) else pr) = some e := by
  induction m with
  | nil => exact Option.noConfusion h
  | cons pr m ih =>
    obtain ⟨k, w⟩ := pr
    by_cases hk : k = d
    · rw [List.map_cons]
      have : (if ((k, w) : DateK × EInfo).1 = d then (d, e) else (k, w)) = (d, e) := by
        rw [if_pos hk]
      rw [this, assocFind, if_pos rfl]
    · rw [assocFind, if_neg hk] at h
      rw [List.map_cons]
      have : (if ((k, w) : DateK × EInfo).1 = d then (d, e) else (k, w)) = (k, w) := by
        rw [if_neg hk]
      rw [this, assocFind, if_neg hk]
      exact ih h

/-- Updating one key leaves every other key's lookup unchanged. -/
theorem assocFind_map_update_ne (d d2 : DateK) (hne : d ≠ d2) (e : EInfo)
    (m : List (DateK × EInfo)) :
    assocFind d2 (m.map fun pr => if pr.1 = d then (d, e) else pr) = assocFind d2 m := by
  induction m with
  | nil => rfl
  | cons pr m ih =>
    obtain ⟨k, w⟩ := pr
    rw [List.map_cons]
    by_cases hk : k = d
    · have h1 : (if ((k, w) : DateK × EInfo).1 = d then (d, e) else (k, w)) = (d, e) := by
        rw [if_pos hk]
      rw [h1, assocFind, if_neg hne, assocFind, if_neg (by rw [hk]; exact hne)]
      exact ih
    · have h1 : (if ((k, w) : DateK × EInfo).1 = d then (d, e) else (k, w)) = (k, w) := by
        rw [if_neg hk]
      rw [h1, assocFind, assocFind]
      by_cases hk2 : k = d2
      · rw [if_pos hk2, if_pos hk2]
      · rw [if_neg hk2, if_neg hk2]
        exact ih

/-- Per-date view of one dedup step. -/
theorem assocFind_dedupStep (m : List (DateK × EInfo)) (e : EInfo) (d : DateK) :
    assocFind d (dedupStep m e) =
      if e.data.date = d then
        (match assocFind d m with
         | none => some e
         | some b => if b.received < e.received then some e else some b)
      else assocFind d m := by
  by_cases hd : e.data.date = d
  · subst hd
    rw [if_pos rfl]
    unfold dedupStep
    cases hm : assocFind e.data.date m with
    | none =>
      dsimp only
      rw [assocFind_append_right _ _ _ hm, assocFind, if_pos rfl]
    | some cur =>
      dsimp only
      by_cases hrec : cur.received < e.received
      · rw [if_pos hrec, if_pos hrec]
        exact assocFind_map_update _ _ _ _ hm
      · rw [if_neg hrec, if_neg hrec]
        exact hm
  · rw [if_neg hd]
    unfold dedupStep
    cases hm : assocFind e.data.date m with
    | none =>
      dsimp only
      cases hm2 : assocFind d m with
      | none =>
        rw [assocFind_append_right _ _ _ hm2, assocFind, if_neg hd]
        rfl
      | some v =>
        exact assocFind_append_left _ _ _ _ hm2
    | some cur =>
      dsimp only
      by_cases hrec : cur.received < e.received
      · rw [if_pos hrec]
        exact assocFind_map_update_ne _ _ hd _ _
      · rw [if_neg hrec]

/-- The dedup fold, viewed at one date, is the selection fold over that
date's candidates in arrival order. -/
theorem assocFind_foldl_dedup (es : List EInfo) :
    ∀ (m : List (DateK × EInfo)) (d : DateK),
      assocFind d (es.foldl dedupStep m) =
        bestOf (assocFind d m) (es.filter fun e => decide (e.data.date = d)) := by
  induction es with
  | nil => intro m d; rfl
  | cons e es ih =>
    intro m d
    rw [List.foldl_cons, ih]
    by_cases hd : e.data.date = d
    · rw [List.filter_cons_of_pos (by simp [hd])]
      rw [assocFind_dedupStep, if_pos hd]
      cases hm : assocFind d m with
      | none => rfl
      | some cur =>
        dsimp only
        by_cases hrec : cur.received < e.received
        · rw [if_pos hrec]
          simp only [bestOf, List.foldl_cons]
          rw [if_pos hrec]
        · rw [if_neg hrec]
          simp only [bestOf, List.foldl_cons]
          rw [if_neg hrec]
    · rw [List.filter_cons_of_neg (by simp [hd])]
      rw [assocFind_dedupStep, if_neg hd]

/-- The selection fold from a present incumbent always selects something. -/
theorem bestOf_some (l : List EInfo) : ∀ b : EInfo, ∃ e, bestOf (some b) l = some e := by
  induction l with
  | nil => intro b; exact ⟨b, rfl⟩
  | cons c l ih =>
    intro b
    by_cases h : b.received < c.received
    · obtain ⟨e, he⟩ := ih c
      refine ⟨e, ?_⟩
      simpa only [bestOf, List.foldl_cons, if_pos h] using he
    · obtain ⟨e, he⟩ := ih b
      refine ⟨e, ?_⟩
      simpa only [bestOf, List.foldl_cons, if_neg h] using he

/-- The selection fold picks the first candidate attaining the maximum
received time: everything before it is strictly earlier, everything in the
pool is no later. -/
theorem bestOf_first_max :
    ∀ (l : List EInfo) (b e : EInfo), bestOf (some b) l = some e →
      ∃ pre post, b :: l = pre ++ e :: post ∧ (∀ x ∈ pre, x.received < e.received) ∧
        ∀ x ∈ b :: l, x.received ≤ e.received := by
  intro l
  induction l with
  | nil =>
    intro b e h
    injection h with h2
    subst h2
    refine ⟨[], [], rfl, by simp, ?_⟩
    intro x hx
    rcases List.mem_cons.mp hx with h | h
    · rw [h]
    · simp at h
  | cons c l ih =>
    intro b e h
    by_cases hbc : b.received < c.received
    · have h2 : bestOf (some c) l = some e := by
        simpa only [bestOf, List.foldl_cons, if_pos hbc] using h
      obtain ⟨pre, post, hdec, hpre, hall⟩ := ih c e h2
      have hce : c.received ≤ e.received := hall c (List.mem_cons_self c l)
      refine ⟨b :: pre, post, by rw [List.cons_append, hdec], ?_, ?_⟩
      · intro x hx
        rcases List.mem_cons.mp hx with hx | hx
        · rw [hx]; omega
        · exact hpre x hx
      · intro x hx
        rcases List.mem_cons.mp hx with hx | hx
        · rw [hx]; omega
        · exact hall x hx
    · have h2 : bestOf (some b) l = some e := by
        simpa only [bestOf, List.foldl_cons, if_neg hbc] using h
      obtain ⟨pre, post, hdec, hpre, hall⟩ := ih b e h2
      cases pre with
      | nil =>
        simp only [List.nil_append] at hdec
        injection hdec with hbe hlp
        subst hbe
        subst hlp
        refine ⟨[], c :: l, by simp, by simp, ?_⟩
        intro x hx
        rcases List.mem_cons.mp hx with hx | hx
        · rw [hx]
        · rcases List.mem_cons.mp hx with hx2 | hx2
          · rw [hx2]; omega
          · exact hall x (List.mem_cons_of_mem _ hx2)
      | cons p0 pre2 =>
        rw [List.cons_append] at hdec
        injection hdec with hbp hlp
        subst hbp
        have hbe : b.received < e.received := hpre b (List.mem_cons_self b pre2)
        refine ⟨b :: c :: pre2, post, ?_, ?_, ?_⟩
        · rw [hlp]
          simp
        · intro x hx
          rcases List.mem_cons.mp hx with hx | hx
          · rw [hx]; exact hbe
          · rcases List.mem_cons.mp hx with hx2 | hx2
            · rw [hx2]; omega
            · exact hpre x (List.mem_cons_of_mem _ hx2)
        · intro x hx
          rcases List.mem_cons.mp hx with hx | hx
          · rw [hx]; omega
          · rcases List.mem_cons.mp hx with hx2 | hx2
            · rw [hx2]; omega
            · exact hall x (List.mem_cons_of_mem _ hx2)

/-- One dedup step preserves distinctness of the date keys. -/
theorem keys_dedupStep (m : List (DateK × EInfo)) (e : EInfo)
    (h : (List.map Prod.fst m).Nodup) :
    (List.map Prod.fst (dedupStep m e)).Nodup := by
  unfold dedupStep
  cases hm : assocFind e.data.date m with
  | none =>
    have hnot : e.data.date ∉ List.map Prod.fst m := by
      rw [assocFind_eq_none] at hm
      intro hmem
      obtain ⟨pr, hpr, hfst⟩ := List.mem_map.mp hmem
      exact hm pr hpr hfst
    rw [List.map_append]
    simp only [List.map_cons, List.map_nil]
    rw [List.nodup_append]
    refine ⟨h, List.nodup_singleton _, ?_⟩
    intro a ha hb
    simp only [List.mem_singleton] at hb
    subst hb
    exact hnot ha
  | some cur =>
    dsimp only
    by_cases hrec : cur.received < e.received
    · rw [if_pos hrec]
      have hmap : List.map Prod.fst
          (m.map fun pr => if pr.1 = e.data.date then (e.data.date, e) else pr) =
          List.map Prod.fst m := by
        rw [List.map_map]
        refine List.map_congr_left ?_
        intro pr _
        by_cases hpr : pr.1 = e.data.date
        · simp [hpr]
        · simp [hpr]
      rw [hmap]
      exact h
    · rw [if_neg hrec]
      exact h

/-- The dedup result has pairwise distinct date keys. -/
theorem reconcile_keys_nodup (es : List EInfo) :
    (List.map Prod.fst (reconcile es)).Nodup := by
  have aux : ∀ (l : List EInfo) (m : List (DateK × EInfo)),
      (List.map Prod.fst m).Nodup → (List.map Prod.fst (l.foldl dedupStep m)).Nodup := by
    intro l
    induction l with
    | nil => intro m hm; exact hm
    | cons e l ih =>
      intro m hm
      rw [List.foldl_cons]
      exact ih _ (keys_dedupStep m e hm)
  exact aux es [] (by simp)

/-- C2: reconciliation keeps at most one record per calendar date; per date
it keeps exactly the candidate with the strictly greatest received time,
and on exact ties the first-seen candidate wins.  Formally: the kept entry
for date `d` is the first element of the date's candidate group (in arrival
order) attaining the maximum received time — everything before it in the
group is strictly earlier, everything in the group is no later — and a date
has an entry exactly when its group is nonempty. -/
theorem reconcile_latest_wins (es : List EInfo) (d : DateK) :
    (List.map Prod.fst (reconcile es)).Nodup ∧
    (assocFind d (reconcile es) = none ↔
      es.filter (fun e => decide (e.data.date = d)) = []) ∧
    ∀ e, assocFind d (reconcile es) = some e →
      ∃ pre post,
        es.filter (fun x => decide (x.data.date = d)) = pre ++ e :: post ∧
        (∀ x ∈ pre, x.received < e.received) ∧
        ∀ x ∈ es.filter (fun x => decide (x.data.date = d)), x.received ≤ e.received := by
  have hchar : assocFind d (reconcile es) =
      bestOf none (es.filter fun e => decide (e.data.date = d)) := by
    unfold reconcile
    rw [assocFind_foldl_dedup]
    rfl
  refine ⟨reconcile_keys_nodup es, ?_, ?_⟩
  · rw [hchar]
    constructor
    · intro h
      cases hf : es.filter (fun e => decide (e.data.date = d)) with
      | nil => rfl
      | cons b l =>
        rw [hf] at h
        obtain ⟨e, he⟩ := bestOf_some l b
        have : bestOf none (b :: l) = bestOf (some b) l := rfl
        rw [this, he] at h
        exact Option.noConfusion h
    · intro h
      rw [h]
      rfl
  · intro e he
    rw [hchar] at he
    cases hf : es.filter (fun x => decide (x.data.date = d)) with
    | nil =>
      rw [hf] at he
      exact Option.noConfusion he
    | cons b l =>
      rw [hf] at he
      have he2 : bestOf (some b) l = some e := he
      obtain ⟨pre, post, hdec, hpre, hall⟩ := bestOf_first_max l b e he2
      exact ⟨pre, post, hdec, hpre, hall⟩

/-- Witness for the reconciliation theorem: two candidates for 2024-01-05
received at 900 and 1400; the one received at 1400 is kept, settled by
applying the theorem at the concrete input. -/
theorem reconcile_latest_wins_witness :
    ∃ pre post,
      ([einfoA, einfoB] : List EInfo).filter
          (fun x => decide (x.data.date = ((2024, 1, 5) : DateK))) = pre ++ einfoB :: post ∧
      (∀ x ∈ pre, x.received < einfoB.received) ∧
      ∀ x ∈ ([einfoA, einfoB] : List EInfo).filter
          (fun x => decide (x.data.date = ((2024, 1, 5) : DateK))),
        x.received ≤ einfoB.received :=
  (reconcile_latest_wins [einfoA, einfoB] (2024, 1, 5)).2.2 einfoB rfl

/-- Keyed-upsert batch with distinct keys: untouched rows keep their place,
batch rows are appended in batch order. -/
theorem applyBatch_char (b : List (DateK × EInfo)) :
    (List.map Prod.fst b).Nodup →
    ∀ s : List Row, applyBatch b s =
      (s.filter fun x => decide (x.date ∉ List.map Prod.fst b)) ++
        b.map fun pr => rowOf pr.1 pr.2 := by
  induction b with
  | nil =>
    intro _ s
    have hpred : (fun x : Row => decide (x.date ∉ List.map Prod.fst ([] : List (DateK × EInfo)))) =
        fun _ => true := by
      funext x
      simp
    simp [applyBatch, hpred]
  | cons pr b ih =>
    intro hnd s
    obtain ⟨d0, e0⟩ := pr
    simp only [List.map_cons] at hnd
    have hd0 : d0 ∉ List.map Prod.fst b := (List.nodup_cons.mp hnd).1
    have hnd2 : (List.map Prod.fst b).Nodup := (List.nodup_cons.mp hnd).2
    have hstep : applyBatch ((d0, e0) :: b) s = applyBatch b (upsertRow (rowOf d0 e0) s) := by
      rfl
    rw [hstep, ih hnd2]
    unfold upsertRow
    rw [List.filter_append, List.filter_filter]
    have hsingle : List.filter (fun x => decide (x.date ∉ List.map Prod.fst b)) [rowOf d0 e0] =
        [rowOf d0 e0] := by
      simp only [List.filter_cons, List.filter_nil]
      rw [if_pos]
      simp only [rowOf]
      exact decide_eq_true hd0
    rw [hsingle]
    have hpred : (fun x : Row => decide (x.date ∉ List.map Prod.fst b) &&
        decide (x.date ≠ (rowOf d0 e0).date)) =
        fun x : Row => decide (x.date ∉ List.map Prod.fst ((d0, e0) :: b)) := by
      funext x
      simp only [rowOf, List.map_cons, List.mem_cons, not_or, Bool.decide_and]
      rw [Bool.and_comm]
    rw [hpred, List.map_cons, List.append_assoc]
    rfl

/-- A batch with distinct keys is idempotent on the store. -/
theorem applyBatch_idem (b : List (DateK × EInfo))
    (hnd : (List.map Prod.fst b).Nodup) (s : List Row) :
    applyBatch b (applyBatch b s) = applyBatch b s := by
  rw [applyBatch_char b hnd s, applyBatch_char b hnd, List.filter_append,
    List.filter_filter]
  have hpred : (fun x : Row => decide (x.date ∉ List.map Prod.fst b) &&
      decide (x.date ∉ List.map Prod.fst b)) =
      fun x : Row => decide (x.date ∉ List.map Prod.fst b) := by
    funext x
    rw [Bool.and_self]
  rw [hpred]
  have hrows : List.filter (fun x => decide (x.date ∉ List.map Prod.fst b))
      (b.map fun pr => rowOf pr.1 pr.2) = [] := by
    rw [List.filter_eq_nil_iff]
    intro a ha
    obtain ⟨pr, hpr, heq⟩ := List.mem_map.mp ha
    subst heq
    simp only [rowOf, decide_eq_true_eq]
    intro hnot
    exact hnot (List.mem_map_of_mem Prod.fst hpr)
  rw [hrows, List.append_nil]

/-- C3: the upsert is idempotent — replacing a date's row with the same row
twice equals doing it once — and a whole sync session is idempotent on the
store: running `sync_outlook_emails` twice over the same message window
leaves exactly the state of one run (no duplicate rows, no changed
values). -/
theorem sync_upsert_idempotent :
    (∀ (r : Row) (s : List Row), upsertRow r (upsertRow r s) = upsertRow r s) ∧
    ∀ (msgs : List Msg) (s : List Row),
      sync_outlook_emails msgs (sync_outlook_emails msgs s) =
        sync_outlook_emails msgs s := by
  constructor
  · intro r s
    unfold upsertRow
    rw [List.filter_append, List.filter_filter]
    have h1 : List.filter (fun x => decide (x.date ≠ r.date)) [r] = [] := by
      simp [List.filter_cons]
    have h2 : (fun x : Row => decide (x.date ≠ r.date) && decide (x.date ≠ r.date)) =
        fun x : Row => decide (x.date ≠ r.date) := by
      funext x
      rw [Bool.and_self]
    rw [h1, h2, List.append_nil]
  · intro msgs s
    unfold sync_outlook_emails
    exact applyBatch_idem _ (reconcile_keys_nodup _) _

/-- Every successful parse derives the bag weight from its own per-bag value
by the fixed formula. -/
theorem parse_bag_weight (body : List Char) (pr : Parsed)
    (h : parse_email_body body = some pr) :
    pr.bag_weight = 50 - pr.per_bag_short_excess := by
  unfold parse_email_body at h
  cases he : extract_date body with
  | none => rw [he] at h; exact Option.noConfusion h
  | some ymd =>
    obtain ⟨y, m, d⟩ := ymd
    rw [he] at h
    dsimp only at h
    cases hdi : research matchDeliveryInfoAt body with
    | none => rw [hdi] at h; exact Option.noConfusion h
    | some afterDI =>
      rw [hdi] at h
      dsimp only at h
      cases het : extractTable afterDI with
      | none => rw [het] at h; exact Option.noConfusion h
      | some se =>
        obtain ⟨s0, e0⟩ := se
        rw [het] at h
        dsimp only at h
        cases hpb : perBagOf body with
        | none => rw [hpb] at h; exact Option.noConfusion h
        | some qr =>
          obtain ⟨q, r0⟩ := qr
          rw [hpb] at h
          dsimp only at h
          injection h with h2
          subst h2
          rfl

/-- The dedup fold only ever stores candidates drawn from its inputs: any
property of all inputs holds of every stored entry. -/
theorem foldl_dedup_vals (P : EInfo → Prop) :
    ∀ (es : List EInfo) (m : List (DateK × EInfo)),
      (∀ pr ∈ m, P pr.2) → (∀ e ∈ es, P e) →
      ∀ pr ∈ es.foldl dedupStep m, P pr.2 := by
  intro es
  induction es with
  | nil => intro m hm _ pr hpr; exact hm pr hpr
  | cons e es ih =>
    intro m hm hes pr hpr
    rw [List.foldl_cons] at hpr
    refine ih (dedupStep m e) ?_ (fun x hx => hes x (List.mem_cons_of_mem _ hx)) pr hpr
    intro pr2 hpr2
    unfold dedupStep at hpr2
    cases hf : assocFind e.data.date m with
    | none =>
      rw [hf] at hpr2
      rcases List.mem_append.mp hpr2 with h2 | h2
      · exact hm pr2 h2
      · simp only [List.mem_singleton] at h2
        subst h2
        exact hes e (List.mem_cons_self e es)
    | some cur =>
      rw [hf] at hpr2
      dsimp only at hpr2
      by_cases hrec : cur.received < e.received
      · rw [if_pos hrec] at hpr2
        obtain ⟨pr0, hpr0, heq⟩ := List.mem_map.mp hpr2
        by_cases hpr0d : pr0.1 = e.data.date
        · rw [if_pos hpr0d] at heq
          subst heq
          exact hes e (List.mem_cons_self e es)
        · rw [if_neg hpr0d] at heq
          subst heq
          exact hm pr0 hpr0
      · rw [if_neg hrec] at hpr2
        exact hm pr2 hpr2

/-- Every dedup candidate of a message batch is the parse result of some
message body. -/
theorem candidatesOf_origin (msgs : List Msg) (e : EInfo)
    (he : e ∈ candidatesOf msgs) :
    ∃ msg : Msg, parse_email_body msg.body = some e.data := by
  unfold candidatesOf at he
  obtain ⟨msg, _, hstep⟩ := List.mem_filterMap.mp he
  cases hp : processMessage msg with
  | candidate e2 =>
    rw [hp] at hstep
    injection hstep with h2
    subst h2
    unfold processMessage at hp
    by_cases hs : !senderOK msg.sender
    · rw [if_pos hs] at hp
      exact StepRes.noConfusion hp
    · rw [if_neg hs] at hp
      by_cases hs2 : !subjectOK msg.subject
      · rw [if_pos hs2] at hp
        exact StepRes.noConfusion hp
      · rw [if_neg hs2] at hp
        cases hb : parse_email_body msg.body with
        | none => rw [hb] at hp; exact StepRes.noConfusion hp
        | some p =>
          rw [hb] at hp
          injection hp with h3
          rw [← h3]
          exact ⟨msg, hb⟩
  | skippedSender => rw [hp] at hstep; exact Option.noConfusion hstep
  | skippedSubject => rw [hp] at hstep; exact Option.noConfusion hstep
  | parseFailed => rw [hp] at hstep; exact Option.noConfusion hstep

/-- A row of an upserted store is an old row or the inserted one. -/
theorem mem_upsertRow (r r2 : Row) (s : List Row) (h : r2 ∈ upsertRow r s) :
    r2 ∈ s ∨ r2 = r := by
  unfold upsertRow at h
  rcases List.mem_append.mp h with h | h
  · exact Or.inl (List.mem_of_mem_filter h)
  · simp only [List.mem_singleton] at h
    exact Or.inr h

/-- A row of a batch-applied store is an old row or one built from the
batch. -/
theorem mem_applyBatch (b : List (DateK × EInfo)) :
    ∀ (s : List Row) (r2 : Row), r2 ∈ applyBatch b s →
      r2 ∈ s ∨ ∃ pr ∈ b, r2 = rowOf pr.1 pr.2 := by
  induction b with
  | nil => intro s r2 h; exact Or.inl h
  | cons pr0 b ih =>
    intro s r2 h
    have hstep : applyBatch (pr0 :: b) s = applyBatch b (upsertRow (rowOf pr0.1 pr0.2) s) := rfl
    rw [hstep] at h
    rcases ih _ r2 h with h2 | ⟨pr1, hpr1, heq⟩
    · rcases mem_upsertRow _ _ _ h2 with h3 | h3
      · exact Or.inl h3
      · exact Or.inr ⟨pr0, List.mem_cons_self pr0 b, h3⟩
    · exact Or.inr ⟨pr1, List.mem_cons_of_mem _ hpr1, heq⟩

/-- C4: the derived bag-weight field always equals 50.0 minus the per-bag
short/excess value (exact in the rational model, hence within any
tolerance): every parsed record carries it, and each writing operation —
the sync session, the manual `save_changes` update, and the migration
backfill of `init_database` — preserves the invariant over the whole
store. -/
theorem stored_bag_weight_consistent :
    (∀ (body : List Char) (pr : Parsed), parse_email_body body = some pr →
        pr.bag_weight = 50 - pr.per_bag_short_excess) ∧
    (∀ (msgs : List Msg) (s : List Row), InvStore s →
        InvStore (sync_outlook_emails msgs s)) ∧
    (∀ (d : DateK) (sh ex : Nat) (pb : ℚ) (s : List Row), InvStore s →
        InvStore (save_changes d sh ex pb s)) ∧
    ∀ db : DB, InvStore db.rows → InvStore (init_database db).rows := by
  refine ⟨parse_bag_weight, ?_, ?_, ?_⟩
  · intro msgs s hs r hr p hp
    rcases mem_applyBatch _ _ _ hr with h | ⟨pr0, hpr0, heq⟩
    · exact hs r h p hp
    · have hP : pr0.2.data.bag_weight = 50 - pr0.2.data.per_bag_short_excess := by
        refine foldl_dedup_vals
          (fun e => e.data.bag_weight = 50 - e.data.per_bag_short_excess)
          (candidatesOf msgs) [] (by simp) ?_ pr0 hpr0
        intro e he
        obtain ⟨msg, hmsg⟩ := candidatesOf_origin msgs e he
        exact parse_bag_weight _ _ hmsg
      subst heq
      simp only [rowOf, Option.some.injEq] at hp
      simp only [rowOf]
      rw [hP, hp]
  · intro d sh ex pb s hs r hr p hp
    unfold save_changes at hr
    obtain ⟨r0, hr0, heq⟩ := List.mem_map.mp hr
    by_cases hd : r0.date = d
    · rw [if_pos hd] at heq
      subst heq
      simp only [Option.some.injEq] at hp
      rw [← hp]
    · rw [if_neg hd] at heq
      subst heq
      exact hs r0 hr0 p hp
  · intro db hdb r hr p hp
    cases hcol : db.hasBagCol with
    | true =>
      rw [init_database, if_pos hcol] at hr
      exact hdb r hr p hp
    | false =>
      rw [init_database, if_neg (by rw [hcol]; exact Bool.false_ne_true)] at hr
      dsimp only at hr
      obtain ⟨r0, hr0, heq⟩ := List.mem_map.mp hr
      cases hpb : r0.per_bag_short_excess with
      | none =>
        rw [backfillRow, hpb] at heq
        subst heq
        rw [hpb] at hp
        exact Option.noConfusion hp
      | some p0 =>
        rw [backfillRow, hpb] at heq
        subst heq
        dsimp only at hp
        injection hp with h2
        subst h2
        rfl

/-- Witness for the bag-weight invariant: the parsed scenario record, an
empty sync, a manual update on an empty store, and a migration of an empty
store, each settled by applying the theorem at the concrete input. -/
theorem stored_bag_weight_consistent_witness :
    ({ date := (2024, 1, 5), short := 320, excess := 2070,
       per_bag_short_excess := ratDec true 0 414 4,
       bag_weight := 50 - ratDec true 0 414 4 } : Parsed).bag_weight =
      50 - ({ date := (2024, 1, 5), short := 320, excess := 2070,
              per_bag_short_excess := ratDec true 0 414 4,
              bag_weight := 50 - ratDec true 0 414 4 } : Parsed).per_bag_short_excess ∧
    InvStore (sync_outlook_emails [] []) ∧
    InvStore (save_changes (2024, 1, 5) 1 2 (3 : ℚ) []) ∧
    InvStore (init_database { hasBagCol := false, rows := [] }).rows :=
  ⟨stored_bag_weight_consistent.1 bodySingleSection _ rfl,
   stored_bag_weight_consistent.2.1 [] [] (by intro r hr; simp at hr),
   stored_bag_weight_consistent.2.2.1 (2024, 1, 5) 1 2 3 [] (by intro r hr; simp at hr),
   stored_bag_weight_consistent.2.2.2 { hasBagCol := false, rows := [] }
     (by intro r hr; simp at hr)⟩

/-- C5: on startup, when the derived `bag_weight` column is absent,
`init_database` adds it and backfills every pre-existing row from its stored
per-bag value by the fixed formula; when the column is already present the
migration is skipped entirely, and a second startup never changes
anything. -/
theorem migration_backfill_once (db : DB) :
    (db.hasBagCol = false →
      (init_database db).hasBagCol = true ∧
      (init_database db).rows = db.rows.map backfillRow ∧
      ∀ r ∈ db.rows, ∀ p : ℚ, r.per_bag_short_excess = some p →
        (backfillRow r).bag_weight = some (50 - p)) ∧
    (db.hasBagCol = true → init_database db = db) ∧
    init_database (init_database db) = init_database db := by
  refine ⟨?_, ?_, ?_⟩
  · intro h
    refine ⟨by simp [init_database, h], by simp [init_database, h], ?_⟩
    intro r _ p hp
    rw [backfillRow, hp]
  · intro h
    simp [init_database, h]
  · by_cases h : db.hasBagCol
    · simp [init_database, h]
    · simp [init_database, h]

/-- Witness for the migration theorem: a column-less store is migrated, a
migrated store is left alone, each settled by applying the theorem at the
concrete input. -/
theorem migration_backfill_once_witness :
    (init_database { hasBagCol := false, rows := [rowA] }).hasBagCol = true ∧
    init_database { hasBagCol := true, rows := [rowA] } =
      { hasBagCol := true, rows := [rowA] } :=
  ⟨((migration_backfill_once { hasBagCol := false, rows := [rowA] }).1 rfl).1,
   (migration_backfill_once { hasBagCol := true, rows := [rowA] }).2.1 rfl⟩

/-- C9: the subject filter accepts exactly the subjects containing the
topic keyword pair ("weigh" and "bridge", or the joined "weighbridge") plus
"report" or its common misspelling "repot", case-insensitively; the
misspelled subject "Weigh Bridge Repot" passes and such a message proceeds
to parsing, while any sender-matching message failing the subject predicate
is skipped without its body ever being parsed. -/
theorem subject_filter_misspelling :
    (∀ subject : List Char,
      subjectOK subject = true ↔
        ((containsSub (chs "weigh") (subject.map lowerC) = true ∧
          containsSub (chs "bridge") (subject.map lowerC) = true) ∨
         containsSub (chs "weighbridge") (subject.map lowerC) = true) ∧
        (containsSub (chs "report") (subject.map lowerC) = true ∨
         containsSub (chs "repot") (subject.map lowerC) = true)) ∧
    subjectOK (chs "Weigh Bridge Repot") = true ∧
    (∀ msg : Msg, senderOK msg.sender = true → subjectOK msg.subject = false →
      ∀ b : List Char, processMessage { msg with body := b } = StepRes.skippedSubject) ∧
    processMessage
        { sender := chs "scale.sscil@sevenringscement.com",
          subject := chs "Weigh Bridge Repot",
          body := bodySingleSection, received := 0 } =
      StepRes.candidate
        { data := { date := (2024, 1, 5), short := 320, excess := 2070,
                    per_bag_short_excess := ratDec true 0 414 4,
                    bag_weight := 50 - ratDec true 0 414 4 },
          subject := chs "Weigh Bridge Repot", received := 0 } := by
  refine ⟨?_, by decide, ?_, by rfl⟩
  · intro subject
    unfold subjectOK
    rw [Bool.and_eq_true, Bool.or_eq_true, Bool.or_eq_true, Bool.and_eq_true]
  · intro msg hsender hsubject b
    unfold processMessage
    rw [if_neg (by simp [hsender]), if_pos (by simp [hsubject])]

/-- Witness for the subject-filter theorem: a sender-matching message whose
subject lacks the keywords is skipped without parsing, settled by applying
the theorem at the concrete input. -/
theorem subject_filter_misspelling_witness :
    processMessage
        { sender := chs "scale.sscil@sevenringscement.com",
          subject := chs "hello", body := chs "x", received := 5 } =
      StepRes.skippedSubject :=
  subject_filter_misspelling.2.2.1
    { sender := chs "scale.sscil@sevenringscement.com",
      subject := chs "hello", body := chs "ignored", received := 5 }
    (by decide) (by decide) (chs "x")

/-- Mapping a row function that preserves the filtered predicate and fixes
every row satisfying it commutes away under the filter. -/
theorem filter_map_frame (p : Row → Bool) (f : Row → Row)
    (hp : ∀ r, p (f r) = p r) (hfix : ∀ r, p r = true → f r = r) :
    ∀ s : List Row, (s.map f).filter p = s.filter p := by
  intro s
  induction s with
  | nil => rfl
  | cons r0 s ih =>
    rw [List.map_cons, List.filter_cons, List.filter_cons, hp r0]
    by_cases h : p r0 = true
    · simp only [h, if_true]
      rw [hfix r0 h, ih]
    · have hb : p r0 = false := by
        revert h
        cases p r0 <;> simp
      simp only [hb]
      simpa using ih

/-- C10: the manual correction operations are framed by the date key —
`save_changes` and `delete_record` on date `d` leave every row of any other
date `d2` completely unchanged, and deleting a date with no stored row
leaves the entire store unchanged. -/
theorem manual_ops_frame (s : List Row) (d d2 : DateK) (sh ex : Nat) (pb : ℚ) :
    (d2 ≠ d →
      (save_changes d sh ex pb s).filter (fun r => decide (r.date = d2)) =
        s.filter (fun r => decide (r.date = d2)) ∧
      (delete_record d s).filter (fun r => decide (r.date = d2)) =
        s.filter (fun r => decide (r.date = d2))) ∧
    ((∀ r ∈ s, r.date ≠ d) → delete_record d s = s) := by
  constructor
  · intro hne
    constructor
    · unfold save_changes
      refine filter_map_frame _ _ ?_ ?_ s
      · intro r
        by_cases hr : r.date = d
        · rw [if_pos hr]
        · rw [if_neg hr]
      · intro r hr
        have hd2 : r.date = d2 := of_decide_eq_true hr
        rw [if_neg (by rw [hd2]; exact fun hh => hne hh)]
    · unfold delete_record
      rw [List.filter_filter]
      refine List.filter_congr ?_
      intro r _
      by_cases hr2 : r.date = d2
      · rw [decide_eq_true hr2]
        have hzz : decide (r.date ≠ d) = true := by
          simp only [decide_eq_true_eq]
          rw [hr2]
          exact hne
        rw [hzz]
        rfl
      · rw [decide_eq_false hr2]
        simp
  · intro h
    unfold delete_record
    rw [List.filter_eq_self]
    intro r hr
    simpa using h r hr

/-- Witness for the frame theorem: a one-row store with a different date,
settled by applying the theorem at the concrete input. -/
theorem manual_ops_frame_witness :
    ((save_changes (2024, 1, 6) 9 9 0 [rowA]).filter
        (fun r => decide (r.date = ((2024, 1, 5) : DateK))) =
      [rowA].filter (fun r => decide (r.date = ((2024, 1, 5) : DateK))) ∧
     (delete_record (2024, 1, 6) [rowA]).filter
        (fun r => decide (r.date = ((2024, 1, 5) : DateK))) =
      [rowA].filter (fun r => decide (r.date = ((2024, 1, 5) : DateK)))) ∧
    delete_record (2024, 1, 6) [rowA] = [rowA] :=
  ⟨(manual_ops_frame [rowA] (2024, 1, 6) (2024, 1, 5) 9 9 0).1 (by decide),
   (manual_ops_frame [rowA] (2024, 1, 6) (2024, 1, 5) 9 9 0).2 (by decide)⟩
